import Mathlib

/-!
Shallow embedding of the `proof` package of veriffio/client-go.

Source files modelled: `proof/proof.go` (the data model), `proof/prove.go`
(`Verify` and `recData`), and the operation registry (`operations` map with
keys `sha2_256` and `sha3_512`).

Byte strings are modelled as `List Nat`.  The two hash functions of the
registry are cryptographic primitives external to the repository, so the
registry is parameterised by the two byte transforms; every theorem is
universally quantified over them.  `recData` in the source recurses on the
raw document; in Lean it takes a fuel argument, and `Verify` calls it with
fuel `p.operations.length`, which is proved sufficient for every document
that passes `Verify`'s structural validation (see the safety theorems).
The Go implementation accumulates the hash names of `recData` in a hash map
whose iteration order is unspecified; the model accumulates them in a
duplicate-free list in insertion order.  Only the set of names is
observable, because `Verify` sorts each list before returning it.

Indices are 64-bit ints in the source.  Go's unary negation wraps: at
`-2^63` it returns `-2^63` itself, so the two bounds checks written as
`-di > len(outData)` and `-r.Data <= len(outData)` are evaded at that one
value and the subsequent element access panics at index `2^63 - 1` (which
equals the mathematical `-di - 1` there, as it does for every other 64-bit
value).  The model makes this explicit: the guards carry the `-2^63`
exception and every slice access that Go performs unguarded is modelled by
an in-range test whose failure is a `GoResult.crash`, the model's rendering
of a Go runtime panic (an abort, not an error return).  Outside the 64-bit
range — values no Go document can hold — the model extends the arithmetic
mathematically.
-/

namespace Veriffio

/-- Structure `Operation` of proof.go: a `type` naming a registry entry and the list of
signed input indices. -/
structure Operation where
  type : String
  data : List Int
deriving DecidableEq

/-- Structure `Reference` of proof.go.  The Go struct also carries a `Timestamp` field
that `Verify` never reads; it is omitted. -/
structure Reference where
  data : Int
  ref : String
deriving DecidableEq

/-- Structure `Proof` of proof.go. -/
structure Proof where
  operations : List Operation
  data : List (List Nat)
  references : List Reference
deriving DecidableEq

/-- Structure `VerifiedReference` of proof.go. -/
structure VerifiedReference where
  data : List Nat
  ref : String
  hashes : List String
deriving DecidableEq

/-- The two byte transforms registered in the `operations` map of the
package (`opSha2_256` and `opSha3_512`).  They are external cryptographic
primitives, so the embedding abstracts over them. -/
structure Registry where
  sha2 : List Nat → List Nat
  sha3 : List Nat → List Nat

/-- The `operations` registry map: key `"sha2_256"` maps to the 256-bit
hash, key `"sha3_512"` to the 512-bit hash, anything else is absent. -/
def operations (reg : Registry) (t : String) : Option (List Nat → List Nat) :=
  if t = "sha2_256" then some reg.sha2
  else if t = "sha3_512" then some reg.sha3
  else none

/-- The check `for i, v := range p.Data` of Verify: returns the error for
the first empty data entry, if any. -/
def checkDataEntries : List (List Nat) → Nat → Option String
  | [], _ => none
  | d :: rest, i =>
    if d.isEmpty then some ("data number " ++ toString i ++ " is empty")
    else checkDataEntries rest (i + 1)

/-- Outcome of a Go computation in the model: a normal return (`ok`), a
returned error value (`error`), or a runtime panic (`crash`), with which Go
aborts `Verify` without returning at all.  Index expressions in the source
are 64-bit ints, so an out-of-range slice access — reachable because the
wrapping negation of `-2^63` evades the bounds checks — is a `crash`, not
an `error`. -/
inductive GoResult (α : Type) where
  | crash : String → GoResult α
  | error : String → GoResult α
  | ok : α → GoResult α
deriving DecidableEq

/-- The inner loop `for _, di := range o.Data` of Verify: resolves each
signed index of an operation against the literals `pdata` and the outputs
`outData` produced so far, concatenating the resolved buffers (`inBuf`).
Index `di ≥ 0` resolves to literal `pdata[di]`; `di < 0` resolves to
`outData[-di-1]`.  The source computes `-di` on a 64-bit int: at
`di = -2^63` the negation wraps to `-2^63` itself, so the
`-di > len(outData)` guard passes vacuously (the model's guard carries the
explicit exclusion) and the element access `outData[-di-1]` — whose index
equals the mathematical `-di - 1` for every 64-bit `di`, `2^63-1` at the
wrap value — panics when that index is not below `len(outData)`. -/
def resolveInputs (pdata outData : List (List Nat)) : List Int → GoResult (List Nat)
  | [] => .ok []
  | di :: rest =>
    if di < 0 then
      if di ≠ -(2 ^ 63) ∧ (-di) > (outData.length : Int) then
        .error ("referencing a output not yet calculated " ++ toString di)
      else if (-di) - 1 < (outData.length : Int) then
        match resolveInputs pdata outData rest with
        | .crash e => .crash e
        | .error e => .error e
        | .ok tail => .ok (outData.getD ((-di) - 1).toNat [] ++ tail)
      else .crash ("runtime error: index out of range")
    else if di < (pdata.length : Int) then
      match resolveInputs pdata outData rest with
      | .crash e => .crash e
      | .error e => .error e
      | .ok tail => .ok (pdata.getD di.toNat [] ++ tail)
    else .error ("refering to undefined data element " ++ toString di)

/-- The loop `for _, o := range p.Operations` of Verify: checks each
operation's type against the registry, requires a non-empty input list,
resolves the inputs and appends the operation's output to `outData`. -/
def runOps (reg : Registry) (pdata : List (List Nat)) (outData : List (List Nat)) :
    List Operation → GoResult (List (List Nat))
  | [] => .ok outData
  | o :: rest =>
    match operations reg o.type with
    | none => .error ("unknown operation \x27" ++ o.type ++ "\x27")
    | some op =>
      if o.data.isEmpty then .error ("each operation mush have an input")
      else
        match resolveInputs pdata outData o.data with
        | .crash e => .crash e
        | .error e => .error e
        | .ok inBuf => runOps reg pdata (outData ++ [op inBuf]) rest

/-- The body of the loop `for ri, r := range p.References` of Verify that
fills `refData`: a reference must have a non-empty locator and a negative
index into the materialised outputs.  As in `resolveInputs`, the source's
64-bit negation makes the `-r.Data <= len(outData)` guard pass vacuously at
`r.Data = -2^63` (the model's guard carries the explicit disjunct), and the
access `outData[-r.Data-1]` — index the mathematical `-r.Data - 1` for
every 64-bit value — panics when that index is not below the length. -/
def resolveRef (pdata outData : List (List Nat)) (r : Reference) :
    GoResult VerifiedReference :=
  if r.ref = "" then .error ("cannot have empty reference")
  else if r.data < 0 then
    if r.data = -(2 ^ 63) ∨ (-r.data) ≤ (outData.length : Int) then
      if (-r.data) - 1 < (outData.length : Int) then
        .ok ⟨outData.getD ((-r.data) - 1).toNat [], r.ref, []⟩
      else .crash ("runtime error: index out of range")
    else .error ("reference refers to non-existing data " ++ toString r.data)
  else if r.data < (pdata.length : Int) then
    .error ("reference must refer to calculated data")
  else .error ("reference refers to non-existing data " ++ toString r.data)

/-- The loop of Verify that builds the `refData` slice. -/
def mkRefData (pdata outData : List (List Nat)) :
    List Reference → GoResult (List VerifiedReference)
  | [] => .ok []
  | r :: rest =>
    match resolveRef pdata outData r with
    | .crash e => .crash e
    | .error e => .error e
    | .ok vr =>
      match mkRefData pdata outData rest with
      | .crash e => .crash e
      | .error e => .error e
      | .ok tail => .ok (vr :: tail)

/-- Insertion into the hash-name set `h` of recData (`h[hs] = struct{}{}`):
a name already present is not added again. -/
def hinsert (h : List String) (s : String) : List String :=
  if s ∈ h then h else h ++ [s]

/-- One iteration of the loop `for _, nPos := range p.Operations[-pos-1].Data`
of recData, given the recursive result `r = (okd, okt, hashes)` for one
input position: if the input matched the root or the timestamp, the node's
type `t` is appended to the child's hash list unless already present, the
list is merged into the accumulated set, and the two matched flags are
OR-ed in. -/
def stepHash (t : String) (acc : Bool × Bool × List String)
    (r : Bool × Bool × List String) : Bool × Bool × List String :=
  if r.1 || r.2.1 then
    ((acc.1 || r.1), (acc.2.1 || r.2.1),
      (if t ∈ r.2.2 then r.2.2 else r.2.2 ++ [t]).foldl hinsert acc.2.2)
  else acc

/-- Function `recData` of prove.go, with a fuel argument bounding the recursion
depth.  At a non-negative position the literal is compared byte-wise with
the root data and with the encoded timestamp; at a negative position the
operation's inputs are walked recursively and combined with `stepHash`.
Out-of-range accesses read the defaults `[]` and `⟨"", []⟩`; exhausted fuel
yields `(false, false, [])`.  Neither happens for documents that pass
`Verify`'s validation when the fuel is `p.operations.length`. -/
def recData (p : Proof) (data tdata : List Nat) : Nat → Int → Bool × Bool × List String
  | fuel, pos =>
    if 0 ≤ pos then
      (data == p.data.getD pos.toNat [], tdata == p.data.getD pos.toNat [], [])
    else
      match fuel with
      | 0 => (false, false, [])
      | fuel + 1 =>
        let o := p.operations.getD ((-pos) - 1).toNat ⟨"", []⟩
        (o.data.map (recData p data tdata fuel)).foldl (stepHash o.type) (false, false, [])

/-- Sorting `sort.Strings` applies to the accumulated hash names. -/
def sortStrings (l : List String) : List String :=
  l.insertionSort (· ≤ ·)

/-- The 8-byte big-endian encoding of `uint64(timestamp)` built by Verify
when the timestamp is non-zero, and the empty `tdata` otherwise. -/
def tdataOf (timestamp : Int) : List Nat :=
  if timestamp = 0 then []
  else
    let u := (timestamp.emod (2 ^ 64)).toNat
    [u / 2 ^ 56 % 256, u / 2 ^ 48 % 256, u / 2 ^ 40 % 256, u / 2 ^ 32 % 256,
      u / 2 ^ 24 % 256, u / 2 ^ 16 % 256, u / 2 ^ 8 % 256, u % 256]

/-- The final loop of Verify: keep the references whose trust walk matched
the root data (and the timestamp, when one was encoded), attaching the
sorted hash names. -/
def collectRefs (p : Proof) (data tdata : List Nat) (refData : List VerifiedReference) :
    List VerifiedReference :=
  (p.references.zip refData).filterMap fun rr =>
    let res := recData p data tdata p.operations.length rr.1.data
    if res.1 && (tdata.isEmpty || res.2.1) then
      some ⟨rr.2.data, rr.2.ref, sortStrings res.2.2⟩
    else none

/-- Method `Verify` of prove.go.  A `crash` outcome of either loop
propagates: the Go program aborts instead of returning. -/
def Proof.Verify (reg : Registry) (p : Proof) (data : List Nat) (timestamp : Int) :
    GoResult (List VerifiedReference) :=
  if data.isEmpty then .error ("no data to verify")
  else if p.data.isEmpty then .error ("no data in proof")
  else
    match checkDataEntries p.data 0 with
    | some e => .error e
    | none =>
      if p.references.isEmpty then .error ("no referene")
      else
        match runOps reg p.data [] p.operations with
        | .crash e => .crash e
        | .error e => .error e
        | .ok outData =>
          match mkRefData p.data outData p.references with
          | .crash e => .crash e
          | .error e => .error e
          | .ok refData =>
            let refs := collectRefs p data (tdataOf timestamp) refData
            if refs.isEmpty then .error ("the proof proves nothing for the input data")
            else .ok refs

/-! ### Characterisations of `Verify` -/

/-- When every structural check passes, `Verify` reduces to the final
filtering step over `collectRefs`. -/
theorem verify_eq_of_checks (reg : Registry) (p : Proof) (data : List Nat) (ts : Int)
    (outData : List (List Nat)) (refData : List VerifiedReference)
    (h1 : data.isEmpty = false) (h2 : p.data.isEmpty = false)
    (h3 : checkDataEntries p.data 0 = none) (h4 : p.references.isEmpty = false)
    (h5 : runOps reg p.data [] p.operations = .ok outData)
    (h6 : mkRefData p.data outData p.references = .ok refData) :
    p.Verify reg data ts =
      if (collectRefs p data (tdataOf ts) refData).isEmpty
      then .error ("the proof proves nothing for the input data")
      else .ok (collectRefs p data (tdataOf ts) refData) := by
  unfold Proof.Verify
  rw [h1, h2, h3, h4, h5]
  simp only [Bool.false_eq_true, if_false]
  rw [h6]

/-- A successful `Verify` forces every structural check to pass and the
result to be the non-empty output of `collectRefs`. -/
theorem verify_ok_inv {reg : Registry} {p : Proof} {data : List Nat} {ts : Int}
    {refs : List VerifiedReference} (h : p.Verify reg data ts = .ok refs) :
    ∃ outData refData,
      data.isEmpty = false ∧ p.data.isEmpty = false ∧
      checkDataEntries p.data 0 = none ∧ p.references.isEmpty = false ∧
      runOps reg p.data [] p.operations = .ok outData ∧
      mkRefData p.data outData p.references = .ok refData ∧
      refs = collectRefs p data (tdataOf ts) refData ∧ refs ≠ [] := by
  unfold Proof.Verify at h
  split at h
  · exact absurd h (by simp)
  split at h
  · exact absurd h (by simp)
  split at h
  · exact absurd h (by simp)
  next hc =>
  split at h
  · exact absurd h (by simp)
  split at h
  · exact absurd h (by simp)
  · exact absurd h (by simp)
  next outData hrun =>
  split at h
  · exact absurd h (by simp)
  · exact absurd h (by simp)
  next refData hmk =>
  dsimp only at h
  split at h
  · exact absurd h (by simp)
  next hne =>
    obtain rfl : collectRefs p data (tdataOf ts) refData = refs := GoResult.ok.inj h
    refine ⟨outData, refData, by simp_all, by simp_all, hc, by simp_all, hrun, hmk, rfl, ?_⟩
    simpa [List.isEmpty_iff] using hne

/-! ### C2: the concrete example document -/

/-- C2: for the document with one literal `L`, operation 1 `sha3_512 [0]`,
operation 2 `sha2_256 [-1, 0]` and one reference `{data := -2, ref := "X"}`,
`Verify L 0` succeeds with exactly one verified reference whose data is
`sha2_256 (sha3_512 L ++ L)`, whose locator is `"X"` and whose hash-function
list is `["sha2_256", "sha3_512"]`. -/
theorem C2_example_document (sha2f sha3f : List Nat → List Nat) (L : List Nat)
    (h : L ≠ []) :
    Proof.Verify ⟨sha2f, sha3f⟩
        ⟨[⟨"sha3_512", [0]⟩, ⟨"sha2_256", [-1, 0]⟩], [L], [⟨-2, "X"⟩]⟩ L 0
      = .ok [⟨sha2f (sha3f L ++ L), "X", ["sha2_256", "sha3_512"]⟩] := by
  have hbe : (([] : List Nat) == L) = false := by
    simp [List.isEmpty_iff, h, beq_eq_false_iff_ne]
  have hLe : L.isEmpty = false := by simp [List.isEmpty_iff, h]
  have hnle : ¬ ("sha3_512" : String) ≤ "sha2_256" := by
    rw [String.le_iff_toList_le]; decide
  have hsort : sortStrings ["sha3_512", "sha2_256"] = ["sha2_256", "sha3_512"] := by
    simp [sortStrings, List.insertionSort, List.orderedInsert, hnle]
  simp [Proof.Verify, checkDataEntries, runOps, operations, resolveInputs,
    mkRefData, resolveRef, collectRefs, recData, tdataOf, stepHash, hinsert,
    List.filterMap_cons, h, hbe, hLe, hsort]

/-- Witness for C2 at the input `L = [5]` with injective toy transforms. -/
theorem C2_example_document_witness :
    ([5] : List Nat) ≠ [] ∧
      Proof.Verify ⟨fun l => 2 :: l, fun l => 3 :: l⟩
          ⟨[⟨"sha3_512", [0]⟩, ⟨"sha2_256", [-1, 0]⟩], [[5]], [⟨-2, "X"⟩]⟩ [5] 0
        = .ok [⟨[2, 3, 5, 5], "X", ["sha2_256", "sha3_512"]⟩] :=
  ⟨by decide, C2_example_document (fun l => 2 :: l) (fun l => 3 :: l) [5] (by decide)⟩

/-! ### Duplicate-freeness and sortedness of the hash-name lists -/

theorem hinsert_nodup {h : List String} (hn : h.Nodup) (s : String) :
    (hinsert h s).Nodup := by
  unfold hinsert
  split
  · exact hn
  next hmem => simpa [List.nodup_append, hn] using hmem

theorem foldl_hinsert_nodup (l : List String) :
    ∀ h : List String, h.Nodup → (l.foldl hinsert h).Nodup := by
  induction l with
  | nil => intro h hn; exact hn
  | cons s rest ih =>
    intro h hn
    exact ih _ (hinsert_nodup hn s)

theorem stepHash_nodup (t : String) (acc r : Bool × Bool × List String)
    (hn : acc.2.2.Nodup) : (stepHash t acc r).2.2.Nodup := by
  unfold stepHash
  split
  · exact foldl_hinsert_nodup _ _ hn
  · exact hn

theorem foldl_stepHash_nodup (t : String) (rs : List (Bool × Bool × List String)) :
    ∀ acc : Bool × Bool × List String, acc.2.2.Nodup →
      (rs.foldl (stepHash t) acc).2.2.Nodup := by
  induction rs with
  | nil => intro acc hn; exact hn
  | cons r rest ih =>
    intro acc hn
    exact ih _ (stepHash_nodup t acc r hn)

/-- The hash-name list accumulated by `recData` never contains a name
twice. -/
theorem recData_hashes_nodup (p : Proof) (data tdata : List Nat) (fuel : Nat)
    (pos : Int) : (recData p data tdata fuel pos).2.2.Nodup := by
  unfold recData
  split
  · simp
  · split
    · simp
    · exact foldl_stepHash_nodup _ _ _ List.nodup_nil

theorem sortStrings_perm (l : List String) : (sortStrings l).Perm l :=
  List.perm_insertionSort _ l

theorem sortStrings_sorted (l : List String) :
    List.Sorted (· ≤ ·) (sortStrings l) :=
  List.sorted_insertionSort _ l

/-- Every verified reference in a successful output carries hashes of the
form `sortStrings (recData …)`. -/
theorem verify_ok_hashes {reg : Registry} {p : Proof} {data : List Nat} {ts : Int}
    {refs : List VerifiedReference} (h : p.Verify reg data ts = .ok refs) :
    ∀ vr ∈ refs, ∃ pos, vr.hashes =
      sortStrings (recData p data (tdataOf ts) p.operations.length pos).2.2 := by
  obtain ⟨outData, refData, -, -, -, -, -, -, hrefs, -⟩ := verify_ok_inv h
  subst hrefs
  intro vr hvr
  obtain ⟨rr, -, hsome⟩ := List.mem_filterMap.mp hvr
  dsimp only at hsome
  split at hsome
  · exact ⟨rr.1.data, by cases hsome; rfl⟩
  · exact absurd hsome (by simp)

/-! ### C4 and C5 -/

/-- C4: in every accepted reference of a successful `Verify`, each
operation-type name appears at most once in the hash-function list (the
list is duplicate-free, so every present name has count exactly one), even
when the walk visits a shared ancestor operation through several paths. -/
theorem C4_hash_names_appear_once {reg : Registry} {p : Proof} {data : List Nat}
    {ts : Int} {refs : List VerifiedReference} (h : p.Verify reg data ts = .ok refs) :
    ∀ vr ∈ refs, vr.hashes.Nodup ∧ ∀ s ∈ vr.hashes, vr.hashes.count s = 1 := by
  intro vr hvr
  obtain ⟨pos, hh⟩ := verify_ok_hashes h vr hvr
  have hnd : vr.hashes.Nodup := by
    rw [hh]
    exact ((sortStrings_perm _).nodup_iff).mpr (recData_hashes_nodup p data _ _ pos)
  exact ⟨hnd, fun s hs => List.count_eq_one_of_mem hnd hs⟩

/-- C5: `Verify` is deterministic.  In the embedding it is a pure function,
so two calls with identical arguments are definitionally equal; the content
behind the claim is that every returned hash-name list is sorted
lexicographically, hence independent of the arbitrary iteration order in
which the walk's name set was enumerated: sorting any enumeration
(permutation) of the names yields the identical list. -/
theorem C5_deterministic_output {reg : Registry} {p : Proof} {data : List Nat}
    {ts : Int} {refs : List VerifiedReference} (h : p.Verify reg data ts = .ok refs) :
    p.Verify reg data ts = p.Verify reg data ts ∧
      ∀ vr ∈ refs, List.Sorted (· ≤ ·) vr.hashes ∧
        ∀ l' : List String, l'.Perm vr.hashes → sortStrings l' = vr.hashes := by
  refine ⟨rfl, fun vr hvr => ?_⟩
  obtain ⟨pos, hh⟩ := verify_ok_hashes h vr hvr
  have hsorted : List.Sorted (· ≤ ·) vr.hashes := hh ▸ sortStrings_sorted _
  refine ⟨hsorted, fun l' hperm => ?_⟩
  exact List.eq_of_perm_of_sorted ((sortStrings_perm l').trans hperm)
    (sortStrings_sorted l') hsorted

/-! ### Concrete sample documents for witnesses -/

/-- A concrete registry of injective toy byte transforms, standing in for
the two hash primitives in fully evaluated witness statements. -/
def toyReg : Registry := ⟨fun l => 2 :: l, fun l => 3 :: l⟩

/-- The example document of the package documentation, with literal `[5]`
and locator `"X"`. -/
def exDoc : Proof :=
  ⟨[⟨"sha3_512", [0]⟩, ⟨"sha2_256", [-1, 0]⟩], [[5]], [⟨-2, "X"⟩]⟩

/-- Full evaluation of `Verify` on the sample document. -/
theorem exDoc_verify_eval :
    exDoc.Verify toyReg [5] 0
      = .ok [⟨[2, 3, 5, 5], "X", ["sha2_256", "sha3_512"]⟩] := by
  have hnle : ¬ ("sha3_512" : String) ≤ "sha2_256" := by
    rw [String.le_iff_toList_le]; decide
  have hsort : sortStrings ["sha3_512", "sha2_256"] = ["sha2_256", "sha3_512"] := by
    simp [sortStrings, List.insertionSort, List.orderedInsert, hnle]
  simp [exDoc, toyReg, Proof.Verify, checkDataEntries, runOps, operations,
    resolveInputs, mkRefData, resolveRef, collectRefs, recData, tdataOf,
    stepHash, hinsert, List.filterMap_cons, hsort]

/-- Witness for C4 on the sample document. -/
theorem C4_hash_names_appear_once_witness :
    (["sha2_256", "sha3_512"] : List String).Nodup ∧
      (["sha2_256", "sha3_512"] : List String).count "sha2_256" = 1 := by
  have h := C4_hash_names_appear_once exDoc_verify_eval
    ⟨[2, 3, 5, 5], "X", ["sha2_256", "sha3_512"]⟩ (by simp)
  exact ⟨h.1, h.2 "sha2_256" (by simp)⟩

/-- Witness for C5 on the sample document. -/
theorem C5_deterministic_output_witness :
    List.Sorted (· ≤ ·) (["sha2_256", "sha3_512"] : List String) ∧
      sortStrings ["sha3_512", "sha2_256"] = ["sha2_256", "sha3_512"] := by
  have h := (C5_deterministic_output exDoc_verify_eval).2
    ⟨[2, 3, 5, 5], "X", ["sha2_256", "sha3_512"]⟩ (by simp)
  exact ⟨h.1, h.2 ["sha3_512", "sha2_256"] (List.Perm.swap _ _ _)⟩

/-! ### C3: no literal equals the root data -/

/-- When no literal equals the root data, the root-match flag of the base
case of `recData` is `false` at every literal position. -/
theorem beq_root_false (p : Proof) (data : List Nat) (hne : data ≠ [])
    (hno : ∀ d ∈ p.data, d ≠ data) (i : Nat) :
    (data == p.data.getD i []) = false := by
  rw [List.getD_eq_getElem?_getD]
  rcases lt_or_le i p.data.length with hlt | hge
  · rw [List.getElem?_eq_getElem hlt]
    simp only [Option.getD_some]
    exact beq_eq_false_iff_ne.mpr (Ne.symm (hno _ (List.getElem_mem hlt)))
  · rw [List.getElem?_eq_none hge]
    simp only [Option.getD_none]
    exact beq_eq_false_iff_ne.mpr hne

theorem foldl_stepHash_fst_false (t : String)
    (rs : List (Bool × Bool × List String)) (hrs : ∀ r ∈ rs, r.1 = false) :
    ∀ acc : Bool × Bool × List String, acc.1 = false →
      (rs.foldl (stepHash t) acc).1 = false := by
  induction rs with
  | nil => intro acc h; exact h
  | cons r rest ih =>
    intro acc h
    refine ih (fun x hx => hrs x (by simp [hx])) _ ?_
    unfold stepHash
    split
    · simp [h, hrs r (by simp)]
    · exact h

/-- If no literal equals the root data, the trust walk never reports a root
match, at any position and with any fuel. -/
theorem recData_fst_false (p : Proof) (data tdata : List Nat) (hne : data ≠ [])
    (hno : ∀ d ∈ p.data, d ≠ data) :
    ∀ fuel pos, (recData p data tdata fuel pos).1 = false := by
  intro fuel
  induction fuel with
  | zero =>
    intro pos
    unfold recData
    split
    · exact beq_root_false p data hne hno _
    · rfl
  | succ n ih =>
    intro pos
    unfold recData
    split
    · exact beq_root_false p data hne hno _
    · refine foldl_stepHash_fst_false _ _ ?_ _ rfl
      intro r hr
      obtain ⟨nPos, -, rfl⟩ := List.mem_map.mp hr
      exact ih nPos

/-- C3: for every document whose structural validation passes and every
non-empty root data that is byte-equal to no literal entry, `Verify` fails
with the ProofDoesNotApply error and returns no references. -/
theorem C3_proof_does_not_apply (reg : Registry) (p : Proof) (data : List Nat)
    (ts : Int) (outData : List (List Nat)) (refData : List VerifiedReference)
    (h1 : data ≠ []) (h2 : p.data ≠ []) (h3 : checkDataEntries p.data 0 = none)
    (h4 : p.references ≠ [])
    (h5 : runOps reg p.data [] p.operations = .ok outData)
    (h6 : mkRefData p.data outData p.references = .ok refData)
    (hno : ∀ d ∈ p.data, d ≠ data) :
    p.Verify reg data ts = .error ("the proof proves nothing for the input data") := by
  have h1' : data.isEmpty = false := by simp [List.isEmpty_iff, h1]
  have h2' : p.data.isEmpty = false := by simp [List.isEmpty_iff, h2]
  have h4' : p.references.isEmpty = false := by simp [List.isEmpty_iff, h4]
  rw [verify_eq_of_checks reg p data ts outData refData h1' h2' h3 h4' h5 h6]
  have hempty : collectRefs p data (tdataOf ts) refData = [] := by
    unfold collectRefs
    rw [List.filterMap_eq_nil_iff]
    intro rr hrr
    have hfst := recData_fst_false p data (tdataOf ts) h1 hno
      p.operations.length rr.1.data
    simp [hfst]
  simp [hempty]

/-- Witness for C3: the sample document attests nothing for root `[9]`. -/
theorem C3_proof_does_not_apply_witness :
    (([9] : List Nat) ≠ []) ∧ (∀ d ∈ exDoc.data, d ≠ [9]) ∧
      exDoc.Verify toyReg [9] 0
        = .error ("the proof proves nothing for the input data") :=
  ⟨by decide, by decide,
    C3_proof_does_not_apply toyReg exDoc [9] 0 [[3, 5], [2, 3, 5, 5]]
      [⟨[2, 3, 5, 5], "X", []⟩] (by decide) (by decide) (by decide) (by decide)
      (by rfl) (by rfl) (by decide)⟩

/-! ### C1: acceptance is exactly the trust-walk condition -/

/-- The encoded timestamp buffer is empty exactly for timestamp zero. -/
theorem tdataOf_isEmpty_iff (ts : Int) : (tdataOf ts).isEmpty = true ↔ ts = 0 := by
  unfold tdataOf
  split
  · simp_all
  · simp_all

theorem tdataOf_eq_nil_iff (ts : Int) : tdataOf ts = [] ↔ ts = 0 := by
  rw [← List.isEmpty_iff]
  exact tdataOf_isEmpty_iff ts

theorem mkRefData_length {pdata outData : List (List Nat)} :
    ∀ {l : List Reference} {l2 : List VerifiedReference},
      mkRefData pdata outData l = .ok l2 → l2.length = l.length := by
  intro l
  induction l with
  | nil => intro l2 h; cases h; rfl
  | cons r rest ih =>
    intro l2 h
    unfold mkRefData at h
    split at h
    · exact absurd h (by simp)
    · exact absurd h (by simp)
    split at h
    · exact absurd h (by simp)
    · exact absurd h (by simp)
    next tail htail =>
      cases h
      simp [ih htail]

/-- A `filterMap` over the zip of two equal-length lists is the same
`filterMap` indexed over `List.range`. -/
theorem zip_filterMap_range {α β γ : Type} (d1 : α) (d2 : β)
    (f : α × β → Option γ) :
    ∀ (l1 : List α) (l2 : List β), l1.length = l2.length →
      (l1.zip l2).filterMap f
        = (List.range l1.length).filterMap (fun i => f (l1.getD i d1, l2.getD i d2)) := by
  intro l1
  induction l1 with
  | nil => intro l2 h; simp
  | cons a l1 ih =>
    intro l2 h
    cases l2 with
    | nil => simp at h
    | cons b l2 =>
      simp only [List.length_cons, List.zip_cons_cons, List.range_succ_eq_map,
        List.filterMap_cons, List.filterMap_map]
      have := ih l2 (by simpa using h)
      cases hf : f (a, b) <;>
        simp [hf, this, Function.comp_def, List.getD_cons_succ, List.getD_cons_zero]

/-- C1: for every structurally valid document, the successful result of
`Verify` contains, in document order, exactly those references whose trust
walk from the target reports a root match, together with a timestamp match
whenever the supplied timestamp is non-zero (for timestamp zero no
timestamp match is required); each kept entry carries its resolved data,
locator and sorted hash names. -/
theorem C1_accept_iff_walk (reg : Registry) (p : Proof) (data : List Nat)
    (ts : Int) (outData : List (List Nat)) (refData : List VerifiedReference)
    (refs : List VerifiedReference)
    (h5 : runOps reg p.data [] p.operations = .ok outData)
    (h6 : mkRefData p.data outData p.references = .ok refData)
    (hok : p.Verify reg data ts = .ok refs) :
    refs = (List.range p.references.length).filterMap (fun i =>
      let r := p.references.getD i ⟨0, ""⟩
      let res := recData p data (tdataOf ts) p.operations.length r.data
      if res.1 = true ∧ (ts = 0 ∨ res.2.1 = true) then
        some ⟨(refData.getD i ⟨[], "", []⟩).data, (refData.getD i ⟨[], "", []⟩).ref,
          sortStrings res.2.2⟩
      else none) := by
  obtain ⟨outData', refData', -, -, -, -, hrun', hmk', hrefs, -⟩ := verify_ok_inv hok
  have heq1 : outData' = outData := by
    rw [h5] at hrun'; exact (GoResult.ok.inj hrun').symm
  rw [heq1] at hmk'
  have heq2 : refData' = refData := by
    rw [h6] at hmk'; exact (GoResult.ok.inj hmk').symm
  rw [heq2] at hrefs
  subst hrefs
  unfold collectRefs
  rw [zip_filterMap_range ⟨0, ""⟩ ⟨[], "", []⟩ _ p.references refData
    (mkRefData_length h6).symm]
  apply List.filterMap_congr
  intro i hi
  dsimp only
  rcases hcond : recData p data (tdataOf ts) p.operations.length
      ((p.references.getD i ⟨0, ""⟩).data) with ⟨ok1, ok2, hashes⟩
  apply if_congr _ rfl rfl
  simp [tdataOf_eq_nil_iff]

/-- Witness for C1 on the sample document. -/
theorem C1_accept_iff_walk_witness :
    exDoc.Verify toyReg [5] 0
        = .ok [⟨[2, 3, 5, 5], "X", ["sha2_256", "sha3_512"]⟩] ∧
      [(⟨[2, 3, 5, 5], "X", ["sha2_256", "sha3_512"]⟩ : VerifiedReference)]
        = (List.range exDoc.references.length).filterMap (fun i =>
            let r := exDoc.references.getD i ⟨0, ""⟩
            let res := recData exDoc [5] (tdataOf 0) exDoc.operations.length r.data
            if res.1 = true ∧ ((0 : Int) = 0 ∨ res.2.1 = true) then
              some ⟨(([⟨[2, 3, 5, 5], "X", []⟩] : List VerifiedReference).getD i
                  ⟨[], "", []⟩).data,
                (([⟨[2, 3, 5, 5], "X", []⟩] : List VerifiedReference).getD i
                  ⟨[], "", []⟩).ref,
                sortStrings res.2.2⟩
            else none) :=
  ⟨exDoc_verify_eval,
    C1_accept_iff_walk toyReg exDoc [5] 0 [[3, 5], [2, 3, 5, 5]]
      [⟨[2, 3, 5, 5], "X", []⟩] _ (by rfl) (by rfl) exDoc_verify_eval⟩

/-! ### C6: permuting the references -/

/-- The trust walk never reads the references list. -/
theorem recData_refs_irrel (p : Proof) (refs2 : List Reference)
    (data tdata : List Nat) :
    ∀ fuel pos, recData p data tdata fuel pos
      = recData ⟨p.operations, p.data, refs2⟩ data tdata fuel pos := by
  intro fuel
  induction fuel with
  | zero => intro pos; rfl
  | succ n ih =>
    intro pos
    by_cases hpos : 0 ≤ pos
    · simp [recData, hpos]
    · simp only [recData, hpos, if_false]
      congr 1
      apply List.map_congr_left
      intro a _
      exact ih a

/-- The verified record a reference resolves to before the walk: the
targeted materialised output and the locator, with no hashes yet. -/
def refBase (outData : List (List Nat)) (r : Reference) : VerifiedReference :=
  ⟨outData.getD ((-r.data) - 1).toNat [], r.ref, []⟩

theorem resolveRef_ok_inv {pdata outData : List (List Nat)} {r : Reference}
    {vr : VerifiedReference} (h : resolveRef pdata outData r = .ok vr) :
    r.ref ≠ "" ∧ r.data < 0 ∧ (-r.data) ≤ (outData.length : Int) ∧
      vr = refBase outData r := by
  unfold resolveRef at h
  split at h
  · exact absurd h (by simp)
  next h1 =>
  split at h
  next h2 =>
    split at h
    next hcond =>
      split at h
      next h3 => exact ⟨h1, h2, by omega, (GoResult.ok.inj h).symm⟩
      · exact absurd h (by simp)
    · exact absurd h (by simp)
  · split at h
    · exact absurd h (by simp)
    · exact absurd h (by simp)

/-- A references list all of whose entries are well-formed resolves to the
map of `refBase` over it. -/
theorem mkRefData_ok_of (pdata outData : List (List Nat)) :
    ∀ l : List Reference,
      (∀ r ∈ l, r.ref ≠ "" ∧ r.data < 0 ∧ (-r.data) ≤ (outData.length : Int)) →
      mkRefData pdata outData l = .ok (l.map (refBase outData)) := by
  intro l
  induction l with
  | nil => intro _; rfl
  | cons r rest ih =>
    intro hall
    obtain ⟨h1, h2, h3⟩ := hall r (by simp)
    unfold mkRefData resolveRef
    rw [if_neg h1, if_pos h2,
      if_pos (Or.inr h3 : r.data = -(2 ^ 63) ∨ (-r.data) ≤ (outData.length : Int)),
      if_pos (show (-r.data) - 1 < (outData.length : Int) by omega),
      ih (fun x hx => hall x (by simp [hx]))]
    rfl

/-- A successful `mkRefData` means every reference is well-formed and the
result is the map of `refBase`. -/
theorem mkRefData_ok_inv {pdata outData : List (List Nat)} :
    ∀ {l : List Reference} {l2 : List VerifiedReference},
      mkRefData pdata outData l = .ok l2 →
      (∀ r ∈ l, r.ref ≠ "" ∧ r.data < 0 ∧ (-r.data) ≤ (outData.length : Int)) ∧
        l2 = l.map (refBase outData) := by
  intro l
  induction l with
  | nil => intro l2 h; cases h; exact ⟨by simp, rfl⟩
  | cons r rest ih =>
    intro l2 h
    unfold mkRefData at h
    split at h
    · exact absurd h (by simp)
    · exact absurd h (by simp)
    next vr hvr =>
    split at h
    · exact absurd h (by simp)
    · exact absurd h (by simp)
    next tail htail =>
      cases h
      obtain ⟨ha, hb⟩ := ih htail
      obtain ⟨h1, h2, h3, h4⟩ := resolveRef_ok_inv hvr
      refine ⟨?_, by simp [hb, h4]⟩
      intro x hx
      rcases List.mem_cons.mp hx with rfl | hx
      · exact ⟨h1, h2, h3⟩
      · exact ha x hx

theorem zip_map_filterMap {α β γ : Type} (f : α → β) (k : α × β → Option γ) :
    ∀ l : List α, (l.zip (l.map f)).filterMap k
      = l.filterMap (fun a => k (a, f a)) := by
  intro l
  induction l with
  | nil => rfl
  | cons a l ih =>
    cases hk : k (a, f a) <;> simp [List.filterMap_cons, hk, ih]

/-- The outcome `Verify` computes for one reference: `some` verified record
(resolved data, locator, sorted hash names) when the trust walk accepts it,
`none` otherwise.  The walk depends only on the operations and literals. -/
def refOutcome (ops : List Operation) (pdata : List (List Nat))
    (data tdata : List Nat) (outData : List (List Nat)) (r : Reference) :
    Option VerifiedReference :=
  let res := recData ⟨ops, pdata, []⟩ data tdata ops.length r.data
  if res.1 && (tdata.isEmpty || res.2.1) then
    some ⟨(refBase outData r).data, (refBase outData r).ref, sortStrings res.2.2⟩
  else none

/-- Function `collectRefs` on well-formed references is an order-preserving
`filterMap` of `refOutcome` over the references list. -/
theorem collectRefs_eq_filterMap (p : Proof) (data tdata : List Nat)
    (outData : List (List Nat)) :
    collectRefs p data tdata (p.references.map (refBase outData))
      = p.references.filterMap
          (refOutcome p.operations p.data data tdata outData) := by
  unfold collectRefs
  rw [zip_map_filterMap]
  apply List.filterMap_congr
  intro r _
  dsimp only [refOutcome]
  rw [recData_refs_irrel p ([] : List Reference) data tdata p.operations.length r.data]

/-- C6: permuting the references list (operations and literals unchanged)
permutes the accepted output accordingly, and in both the original and the
permuted document the output is the order-preserving `filterMap` of the
same per-reference outcome over that document's references list. -/
theorem C6_reference_permutation (reg : Registry) (p : Proof) (data : List Nat)
    (ts : Int) (outData : List (List Nat)) (out : List VerifiedReference)
    (refs' : List Reference)
    (h5 : runOps reg p.data [] p.operations = .ok outData)
    (hok : p.Verify reg data ts = .ok out)
    (hperm : p.references.Perm refs') :
    out = p.references.filterMap
        (refOutcome p.operations p.data data (tdataOf ts) outData) ∧
      ∃ out', Proof.Verify reg ⟨p.operations, p.data, refs'⟩ data ts = .ok out' ∧
        out.Perm out' ∧
        out' = refs'.filterMap
          (refOutcome p.operations p.data data (tdataOf ts) outData) := by
  obtain ⟨outData', refData, hd1, hd2, hd3, hd4, hrun', hmk', hrefs, hne⟩ :=
    verify_ok_inv hok
  have heq1 : outData' = outData := by
    rw [h5] at hrun'; exact (GoResult.ok.inj hrun').symm
  rw [heq1] at hmk'
  obtain ⟨hall, hrd⟩ := mkRefData_ok_inv hmk'
  have hout : out = p.references.filterMap
      (refOutcome p.operations p.data data (tdataOf ts) outData) := by
    rw [hrefs, hrd, collectRefs_eq_filterMap]
  refine ⟨hout, ?_⟩
  have hall' : ∀ r ∈ refs',
      r.ref ≠ "" ∧ r.data < 0 ∧ (-r.data) ≤ (outData.length : Int) :=
    fun r hr => hall r (hperm.mem_iff.mpr hr)
  have hmk2 : mkRefData p.data outData refs' = .ok (refs'.map (refBase outData)) :=
    mkRefData_ok_of p.data outData refs' hall'
  have hd4' : (refs' : List Reference).isEmpty = false := by
    rcases refs' with - | -
    · rw [List.Perm.eq_nil hperm] at hd4
      exact absurd hd4 (by simp)
    · rfl
  have hcoll : collectRefs ⟨p.operations, p.data, refs'⟩ data (tdataOf ts)
      (refs'.map (refBase outData))
        = refs'.filterMap (refOutcome p.operations p.data data (tdataOf ts) outData) :=
    collectRefs_eq_filterMap ⟨p.operations, p.data, refs'⟩ data (tdataOf ts) outData
  have hpermout : out.Perm
      (refs'.filterMap (refOutcome p.operations p.data data (tdataOf ts) outData)) := by
    rw [hout]
    exact hperm.filterMap _
  have hne2 : (refs'.filterMap
      (refOutcome p.operations p.data data (tdataOf ts) outData)).isEmpty = false := by
    rcases hh : refs'.filterMap (refOutcome p.operations p.data data (tdataOf ts) outData) with - | -
    · rw [hh] at hpermout
      exact absurd (List.Perm.eq_nil hpermout) hne
    · rfl
  refine ⟨_, ?_, hpermout, rfl⟩
  rw [verify_eq_of_checks reg ⟨p.operations, p.data, refs'⟩ data ts outData
    (refs'.map (refBase outData)) hd1 hd2 hd3 hd4' h5 hmk2, hcoll, hne2]
  simp

/-- A document with two accepted references, used to witness C6. -/
def permDoc : Proof :=
  ⟨[⟨"sha2_256", [0]⟩, ⟨"sha3_512", [0]⟩], [[5]], [⟨-1, "A"⟩, ⟨-2, "B"⟩]⟩

/-- Witness for C6: swapping the two references of `permDoc`. -/
theorem C6_reference_permutation_witness :
    permDoc.references.Perm [⟨-2, "B"⟩, ⟨-1, "A"⟩] ∧
      (([⟨[2, 5], "A", ["sha2_256"]⟩, ⟨[3, 5], "B", ["sha3_512"]⟩] :
          List VerifiedReference)
        = permDoc.references.filterMap
            (refOutcome permDoc.operations permDoc.data [5] (tdataOf 0)
              [[2, 5], [3, 5]]) ∧
      ∃ out', Proof.Verify toyReg ⟨permDoc.operations, permDoc.data,
          [⟨-2, "B"⟩, ⟨-1, "A"⟩]⟩ [5] 0 = .ok out' ∧
        ([⟨[2, 5], "A", ["sha2_256"]⟩, ⟨[3, 5], "B", ["sha3_512"]⟩] :
            List VerifiedReference).Perm out' ∧
        out' = ([⟨-2, "B"⟩, ⟨-1, "A"⟩] : List Reference).filterMap
          (refOutcome permDoc.operations permDoc.data [5] (tdataOf 0)
            [[2, 5], [3, 5]])) :=
  ⟨List.Perm.swap (⟨-2, "B"⟩ : Reference) ⟨-1, "A"⟩ [],
    C6_reference_permutation toyReg permDoc [5] 0 [[2, 5], [3, 5]]
      [⟨[2, 5], "A", ["sha2_256"]⟩, ⟨[3, 5], "B", ["sha3_512"]⟩]
      [⟨-2, "B"⟩, ⟨-1, "A"⟩] (by rfl) (by rfl)
      (List.Perm.swap (⟨-2, "B"⟩ : Reference) ⟨-1, "A"⟩ [])⟩

/-! ### Fail-fast error propagation through the operation loop -/

/-- Inversion of one successful step of the operation loop. -/
theorem runOps_cons_ok {reg : Registry} {pdata acc : List (List Nat)}
    {o : Operation} {rest : List Operation} {out : List (List Nat)}
    (h : runOps reg pdata acc (o :: rest) = .ok out) :
    ∃ f inBuf, operations reg o.type = some f ∧ o.data.isEmpty = false ∧
      resolveInputs pdata acc o.data = .ok inBuf ∧
      runOps reg pdata (acc ++ [f inBuf]) rest = .ok out := by
  simp only [runOps] at h
  split at h
  · exact absurd h (by simp)
  next f hf =>
    split at h
    · exact absurd h (by simp)
    next hem =>
      split at h
      · exact absurd h (by simp)
      · exact absurd h (by simp)
      next inBuf hin => exact ⟨f, inBuf, hf, by simpa using hem, hin, h⟩

/-- One step of the operation loop, forward direction. -/
theorem runOps_cons_of {reg : Registry} {pdata acc : List (List Nat)}
    {o : Operation} (rest : List Operation) {f : List Nat → List Nat}
    {inBuf : List Nat}
    (hf : operations reg o.type = some f) (hem : o.data.isEmpty = false)
    (hin : resolveInputs pdata acc o.data = .ok inBuf) :
    runOps reg pdata acc (o :: rest) = runOps reg pdata (acc ++ [f inBuf]) rest := by
  simp only [runOps, hf, hem, hin, Bool.false_eq_true, if_false]

/-- Running a list of operations that starts with a successfully executed
prefix continues from the prefix's outputs. -/
theorem runOps_append (reg : Registry) (pdata : List (List Nat)) :
    ∀ (pre rest : List Operation) (acc outData : List (List Nat)),
      runOps reg pdata acc pre = .ok outData →
      runOps reg pdata acc (pre ++ rest) = runOps reg pdata outData rest := by
  intro pre
  induction pre with
  | nil => intro rest acc outData h; cases h; rfl
  | cons o pre ih =>
    intro rest acc outData h
    obtain ⟨f, inBuf, hf, hem, hin, h'⟩ := runOps_cons_ok h
    rw [List.cons_append, runOps_cons_of (pre ++ rest) hf hem hin]
    exact ih rest _ _ h'

/-- Inversion of one successfully resolved input index. -/
theorem resolveInputs_cons_ok {pdata outData : List (List Nat)} {x : Int}
    {rest : List Int} {buf : List Nat}
    (h : resolveInputs pdata outData (x :: rest) = .ok buf) :
    ∃ tail, resolveInputs pdata outData rest = .ok tail ∧
      ((x < 0 ∧ ¬ (outData.length : Int) < -x ∧
          buf = outData.getD ((-x) - 1).toNat [] ++ tail) ∨
        (¬ x < 0 ∧ x < (pdata.length : Int) ∧
          buf = pdata.getD x.toNat [] ++ tail)) := by
  simp only [resolveInputs] at h
  split at h
  next hx =>
    split at h
    · exact absurd h (by simp)
    next hguard =>
      split at h
      next hb3 =>
        split at h
        · exact absurd h (by simp)
        · exact absurd h (by simp)
        next tail ht =>
          exact ⟨tail, ht, Or.inl ⟨hx, by omega, (GoResult.ok.inj h).symm⟩⟩
      · exact absurd h (by simp)
  next hx =>
    split at h
    next hlt =>
      split at h
      · exact absurd h (by simp)
      · exact absurd h (by simp)
      next tail ht => exact ⟨tail, ht, Or.inr ⟨hx, hlt, (GoResult.ok.inj h).symm⟩⟩
    · exact absurd h (by simp)

/-- Resolving a backward index in range, forward direction. -/
theorem resolveInputs_cons_neg {pdata outData : List (List Nat)} {x : Int}
    {rest : List Int} {tail : List Nat}
    (hx : x < 0) (hb : ¬ (outData.length : Int) < -x)
    (ht : resolveInputs pdata outData rest = .ok tail) :
    resolveInputs pdata outData (x :: rest)
      = .ok (outData.getD ((-x) - 1).toNat [] ++ tail) := by
  simp only [resolveInputs, ht]
  rw [if_pos hx,
    if_neg (show ¬(x ≠ -(2 ^ 63) ∧ (-x) > (outData.length : Int)) from fun hc => hb hc.2),
    if_pos (show (-x) - 1 < (outData.length : Int) by omega)]

/-- Resolving a literal index in range, forward direction. -/
theorem resolveInputs_cons_nonneg {pdata outData : List (List Nat)} {x : Int}
    {rest : List Int} {tail : List Nat}
    (hx : ¬ x < 0) (hlt : x < (pdata.length : Int))
    (ht : resolveInputs pdata outData rest = .ok tail) :
    resolveInputs pdata outData (x :: rest)
      = .ok (pdata.getD x.toNat [] ++ tail) := by
  simp only [resolveInputs, ht]
  rw [if_neg hx, if_pos hlt]

/-- Resolving a concatenation of index lists resolves the first part, then
the second, concatenating the buffers and propagating the first error. -/
theorem resolveInputs_append (pdata outData : List (List Nat)) :
    ∀ (ds1 : List Int) (buf : List Nat) (ds2 : List Int),
      resolveInputs pdata outData ds1 = .ok buf →
      resolveInputs pdata outData (ds1 ++ ds2)
        = match resolveInputs pdata outData ds2 with
          | .crash e => .crash e
          | .error e => .error e
          | .ok tail => .ok (buf ++ tail) := by
  intro ds1
  induction ds1 with
  | nil =>
    intro buf ds2 h
    cases h
    simp only [List.nil_append]
    cases resolveInputs pdata outData ds2 <;> simp
  | cons x rest ih =>
    intro buf ds2 h
    obtain ⟨tail, ht, hcase⟩ := resolveInputs_cons_ok h
    rw [List.cons_append]
    have h2 := ih _ ds2 ht
    rcases hcase with ⟨hx, hb, rfl⟩ | ⟨hx, hlt, rfl⟩ <;>
      rcases hd : resolveInputs pdata outData ds2 with e | e | tl <;> rw [hd] at h2
    · simp only [resolveInputs, h2]
      rw [if_pos hx,
        if_neg (show ¬(x ≠ -(2 ^ 63) ∧ (-x) > (outData.length : Int)) from
          fun hc => hb hc.2),
        if_pos (show (-x) - 1 < (outData.length : Int) by omega)]
    · simp only [resolveInputs, h2]
      rw [if_pos hx,
        if_neg (show ¬(x ≠ -(2 ^ 63) ∧ (-x) > (outData.length : Int)) from
          fun hc => hb hc.2),
        if_pos (show (-x) - 1 < (outData.length : Int) by omega)]
    · rw [resolveInputs_cons_neg hx hb h2]
      simp [List.append_assoc]
    · simp only [resolveInputs, h2]
      rw [if_neg hx, if_pos hlt]
    · simp only [resolveInputs, h2]
      rw [if_neg hx, if_pos hlt]
    · rw [resolveInputs_cons_nonneg hx hlt h2]
      simp [List.append_assoc]

/-- An out-of-range head index fails `resolveInputs` immediately, with the
backward-reference message for a negative index and the literal-range
message for a non-negative one. -/
theorem resolveInputs_bad_head (pdata outData : List (List Nat)) (di : Int)
    (ds2 : List Int)
    (hbad : (di < 0 ∧ di ≠ -(2 ^ 63) ∧ (outData.length : Int) < -di) ∨
      (¬ di < 0 ∧ (pdata.length : Int) ≤ di)) :
    resolveInputs pdata outData (di :: ds2)
      = .error (if di < 0
          then "referencing a output not yet calculated " ++ toString di
          else "refering to undefined data element " ++ toString di) := by
  unfold resolveInputs
  rcases hbad with ⟨hx, hne, h2⟩ | ⟨hx, h2⟩
  · rw [if_pos hx, if_pos (⟨hne, h2⟩ :
      di ≠ -(2 ^ 63) ∧ (-di) > (outData.length : Int)), if_pos hx]
  · rw [if_neg hx, if_neg (not_lt.mpr h2), if_neg hx]

/-- A failing operation list makes `Verify` fail with the same error, once
the earlier checks pass. -/
theorem verify_eq_error_of_runOps (reg : Registry) (p : Proof) (data : List Nat)
    (ts : Int) (e : String)
    (h1 : data.isEmpty = false) (h2 : p.data.isEmpty = false)
    (h3 : checkDataEntries p.data 0 = none) (h4 : p.references.isEmpty = false)
    (h5 : runOps reg p.data [] p.operations = .error e) :
    p.Verify reg data ts = .error e := by
  unfold Proof.Verify
  rw [h1, h2, h3, h4, h5]
  simp

/-- A failing reference-resolution pass makes `Verify` fail with the same
error, once the earlier stages pass. -/
theorem verify_eq_error_of_mkRefData (reg : Registry) (p : Proof) (data : List Nat)
    (ts : Int) (e : String) (outData : List (List Nat))
    (h1 : data.isEmpty = false) (h2 : p.data.isEmpty = false)
    (h3 : checkDataEntries p.data 0 = none) (h4 : p.references.isEmpty = false)
    (h5 : runOps reg p.data [] p.operations = .ok outData)
    (h6 : mkRefData p.data outData p.references = .error e) :
    p.Verify reg data ts = .error e := by
  unfold Proof.Verify
  rw [h1, h2, h3, h4, h5]
  simp only [Bool.false_eq_true, if_false]
  rw [h6]

/-! ### C7, C8, C9 -/

/-- A well-formed reference resolves to its `refBase` record. -/
theorem resolveRef_ok_of {pdata outData : List (List Nat)} {r : Reference}
    (h1 : r.ref ≠ "") (h2 : r.data < 0) (h3 : (-r.data) ≤ (outData.length : Int)) :
    resolveRef pdata outData r = .ok (refBase outData r) := by
  unfold resolveRef
  rw [if_neg h1, if_pos h2,
    if_pos (Or.inr h3 : r.data = -(2 ^ 63) ∨ (-r.data) ≤ (outData.length : Int)),
    if_pos (show (-r.data) - 1 < (outData.length : Int) by omega)]
  rfl

/-- A reference with a non-negative target index fails `resolveRef`: with
the must-refer-to-calculated-data message when it points at a literal, and
with the non-existing-data message when it is past the literals. -/
theorem resolveRef_nonneg_error {pdata outData : List (List Nat)} {r : Reference}
    (h1 : r.ref ≠ "") (h2 : ¬ r.data < 0) :
    resolveRef pdata outData r
      = .error (if r.data < (pdata.length : Int)
          then "reference must refer to calculated data"
          else "reference refers to non-existing data " ++ toString r.data) := by
  unfold resolveRef
  rw [if_neg h1, if_neg h2]
  by_cases h3 : r.data < (pdata.length : Int)
  · rw [if_pos h3, if_pos h3]
  · rw [if_neg h3, if_neg h3]

/-- A failing reference after a prefix of well-formed ones fails the whole
reference pass with its error. -/
theorem mkRefData_error_at (pdata outData : List (List Nat)) (e : String) :
    ∀ (pre : List Reference) (r : Reference) (rest : List Reference),
      (∀ x ∈ pre, x.ref ≠ "" ∧ x.data < 0 ∧ (-x.data) ≤ (outData.length : Int)) →
      resolveRef pdata outData r = .error e →
      mkRefData pdata outData (pre ++ r :: rest) = .error e := by
  intro pre
  induction pre with
  | nil =>
    intro r rest _ hr
    simp only [List.nil_append, mkRefData, hr]
  | cons x pre ih =>
    intro r rest hall hr
    obtain ⟨h1, h2, h3⟩ := hall x (by simp)
    rw [List.cons_append]
    simp only [mkRefData, resolveRef_ok_of h1 h2 h3,
      ih r rest (fun y hy => hall y (by simp [hy])) hr]

/-- C7: operation input indices follow the 1-based backward offset
convention — a non-negative in-range index resolves to that literal, a
negative in-range index `-k` resolves to the `k`-th output produced so far
— and an input referencing an output not yet produced, or a literal out of
range, makes `Verify` fail with the corresponding dangling-reference error
as soon as the surrounding validation reaches it, at every index except
`-2^63`.  There the claim is right about the intent — the package promises
an error return for invalid proofs and the validation order files an
excessive negative magnitude under DanglingReference — but the code's
64-bit negation wraps, the bounds check passes vacuously, and `Verify`
panics on the element access instead of returning: the first conjunct
evaluates the walk at that failing input and exhibits the crash. -/
theorem C7_index_convention_and_dangling :
    (∀ reg : Registry,
        Proof.Verify reg ⟨[⟨"sha2_256", [-(2 ^ 63)]⟩], [[5]], [⟨-1, "X"⟩]⟩ [5] 0
          = .crash ("runtime error: index out of range")) ∧
    (∀ (pdata outData : List (List Nat)) (di : Int),
        ¬ di < 0 → di < (pdata.length : Int) →
        resolveInputs pdata outData [di] = .ok (pdata.getD di.toNat [])) ∧
    (∀ (pdata outData : List (List Nat)) (di : Int),
        di < 0 → (-di) ≤ (outData.length : Int) →
        resolveInputs pdata outData [di] = .ok (outData.getD ((-di) - 1).toNat [])) ∧
    (∀ (reg : Registry) (p : Proof) (data : List Nat) (ts : Int)
        (pre rest : List Operation) (o : Operation) (f : List Nat → List Nat)
        (outData : List (List Nat)) (ds1 ds2 : List Int) (buf : List Nat) (di : Int),
        data.isEmpty = false → p.data.isEmpty = false →
        checkDataEntries p.data 0 = none → p.references.isEmpty = false →
        p.operations = pre ++ o :: rest →
        runOps reg p.data [] pre = .ok outData →
        operations reg o.type = some f →
        o.data = ds1 ++ di :: ds2 →
        resolveInputs p.data outData ds1 = .ok buf →
        di < 0 → di ≠ -(2 ^ 63) → (outData.length : Int) < -di →
        p.Verify reg data ts
          = .error ("referencing a output not yet calculated " ++ toString di)) ∧
    (∀ (reg : Registry) (p : Proof) (data : List Nat) (ts : Int)
        (pre rest : List Operation) (o : Operation) (f : List Nat → List Nat)
        (outData : List (List Nat)) (ds1 ds2 : List Int) (buf : List Nat) (di : Int),
        data.isEmpty = false → p.data.isEmpty = false →
        checkDataEntries p.data 0 = none → p.references.isEmpty = false →
        p.operations = pre ++ o :: rest →
        runOps reg p.data [] pre = .ok outData →
        operations reg o.type = some f →
        o.data = ds1 ++ di :: ds2 →
        resolveInputs p.data outData ds1 = .ok buf →
        ¬ di < 0 → (p.data.length : Int) ≤ di →
        p.Verify reg data ts
          = .error ("refering to undefined data element " ++ toString di)) := by
  refine ⟨?_, ?_, ?_, ?_, ?_⟩
  · intro reg
    simp [Proof.Verify, checkDataEntries, runOps, operations, resolveInputs]
  · intro pdata outData di hx hlt
    have := resolveInputs_cons_nonneg hx hlt (rfl :
      resolveInputs pdata outData [] = .ok [])
    simpa using this
  · intro pdata outData di hx hb
    have := resolveInputs_cons_neg hx (by omega) (rfl :
      resolveInputs pdata outData [] = .ok [])
    simpa using this
  · intro reg p data ts pre rest o f outData ds1 ds2 buf di
      h1 h2 h3 h4 hops hpre hf hod hds1 hdi hwrap hbad
    apply verify_eq_error_of_runOps reg p data ts _ h1 h2 h3 h4
    rw [hops, runOps_append reg p.data pre (o :: rest) [] outData hpre]
    have hbadmsg : resolveInputs p.data outData o.data
        = .error ("referencing a output not yet calculated " ++ toString di) := by
      rw [hod, resolveInputs_append p.data outData ds1 buf _ hds1,
        resolveInputs_bad_head p.data outData di ds2 (Or.inl ⟨hdi, hwrap, hbad⟩),
        if_pos hdi]
    have hem : o.data.isEmpty = false := by
      rw [hod]; cases ds1 <;> rfl
    simp only [runOps, hf, hem, Bool.false_eq_true, if_false, hbadmsg]
  · intro reg p data ts pre rest o f outData ds1 ds2 buf di
      h1 h2 h3 h4 hops hpre hf hod hds1 hdi hbad
    apply verify_eq_error_of_runOps reg p data ts _ h1 h2 h3 h4
    rw [hops, runOps_append reg p.data pre (o :: rest) [] outData hpre]
    have hbadmsg : resolveInputs p.data outData o.data
        = .error ("refering to undefined data element " ++ toString di) := by
      rw [hod, resolveInputs_append p.data outData ds1 buf _ hds1,
        resolveInputs_bad_head p.data outData di ds2 (Or.inr ⟨hdi, hbad⟩),
        if_neg hdi]
    have hem : o.data.isEmpty = false := by
      rw [hod]; cases ds1 <;> rfl
    simp only [runOps, hf, hem, Bool.false_eq_true, if_false, hbadmsg]

/-- Witness for C7: the crash at the wrap value and the four behavioural
parts at concrete documents. -/
theorem C7_index_convention_and_dangling_witness :
    (Proof.Verify toyReg ⟨[⟨"sha2_256", [-(2 ^ 63)]⟩], [[5]], [⟨-1, "X"⟩]⟩ [5] 0
        = .crash ("runtime error: index out of range")) ∧
      (resolveInputs [[5]] [[9]] [0] = .ok [5]) ∧
      (resolveInputs [[5]] [[9]] [-1] = .ok [9]) ∧
      (Proof.Verify toyReg ⟨[⟨"sha2_256", [-1]⟩], [[5]], [⟨-1, "X"⟩]⟩ [5] 0
        = .error ("referencing a output not yet calculated " ++ toString (-1 : Int))) ∧
      (Proof.Verify toyReg ⟨[⟨"sha2_256", [3]⟩], [[5]], [⟨-1, "X"⟩]⟩ [5] 0
        = .error ("refering to undefined data element " ++ toString (3 : Int))) := by
  obtain ⟨t0, t1, t2, t3, t4⟩ := C7_index_convention_and_dangling
  refine ⟨t0 toyReg, t1 [[5]] [[9]] 0 (by decide) (by decide),
    t2 [[5]] [[9]] (-1) (by decide) (by decide), ?_, ?_⟩
  · exact t3 toyReg ⟨[⟨"sha2_256", [-1]⟩], [[5]], [⟨-1, "X"⟩]⟩ [5] 0 [] []
      ⟨"sha2_256", [-1]⟩ (fun l => 2 :: l) [] [] [] [] (-1) (by rfl) (by rfl)
      (by rfl) (by rfl) (by rfl) (by rfl) (by rfl) (by rfl) (by rfl)
      (by decide) (by decide) (by decide)
  · exact t4 toyReg ⟨[⟨"sha2_256", [3]⟩], [[5]], [⟨-1, "X"⟩]⟩ [5] 0 [] []
      ⟨"sha2_256", [3]⟩ (fun l => 2 :: l) [] [] [] [] 3 (by rfl) (by rfl)
      (by rfl) (by rfl) (by rfl) (by rfl) (by rfl) (by rfl) (by rfl)
      (by decide) (by decide)

/-- C8: once the earlier stages pass, a reference with a non-negative
target index makes `Verify` fail — with the InvalidReferenceTarget message
for an index inside the literals and the non-existing-data message past
them — even when everything else about the reference is well-formed. -/
theorem C8_nonnegative_reference_rejected (reg : Registry) (p : Proof)
    (data : List Nat) (ts : Int) (outData : List (List Nat))
    (pre rest : List Reference) (r : Reference)
    (h1 : data.isEmpty = false) (h2 : p.data.isEmpty = false)
    (h3 : checkDataEntries p.data 0 = none)
    (hrefs : p.references = pre ++ r :: rest)
    (h5 : runOps reg p.data [] p.operations = .ok outData)
    (hpre : ∀ x ∈ pre, x.ref ≠ "" ∧ x.data < 0 ∧ (-x.data) ≤ (outData.length : Int))
    (hne : r.ref ≠ "") (hnn : 0 ≤ r.data) :
    p.Verify reg data ts
      = .error (if r.data < (p.data.length : Int)
          then "reference must refer to calculated data"
          else "reference refers to non-existing data " ++ toString r.data) := by
  have h4 : p.references.isEmpty = false := by
    rw [hrefs]; cases pre <;> rfl
  apply verify_eq_error_of_mkRefData reg p data ts _ outData h1 h2 h3 h4 h5
  rw [hrefs]
  exact mkRefData_error_at p.data outData _ pre r rest hpre
    (resolveRef_nonneg_error hne (not_lt.mpr hnn))

/-- Witness for C8: a reference targeting literal index 0. -/
theorem C8_nonnegative_reference_rejected_witness :
    ((0 : Int) ≤ 0) ∧
      Proof.Verify toyReg ⟨[⟨"sha2_256", [0]⟩], [[5]], [⟨0, "X"⟩]⟩ [5] 0
        = .error (if (0 : Int) < (([[5]] : List (List Nat)).length : Int)
            then "reference must refer to calculated data"
            else "reference refers to non-existing data " ++ toString (0 : Int)) :=
  ⟨by decide,
    C8_nonnegative_reference_rejected toyReg
      ⟨[⟨"sha2_256", [0]⟩], [[5]], [⟨0, "X"⟩]⟩ [5] 0 [[2, 5]] [] [] ⟨0, "X"⟩
      (by rfl) (by rfl) (by rfl) (by rfl) (by rfl) (by simp) (by decide) (by decide)⟩

/-- C9: once the earlier stages pass, an operation whose type is not a key
of the registry makes `Verify` fail with the UnknownOperation error, for
any surrounding operations, literals and references. -/
theorem C9_unknown_operation (reg : Registry) (p : Proof) (data : List Nat)
    (ts : Int) (outData : List (List Nat)) (pre rest : List Operation)
    (o : Operation)
    (h1 : data.isEmpty = false) (h2 : p.data.isEmpty = false)
    (h3 : checkDataEntries p.data 0 = none) (h4 : p.references.isEmpty = false)
    (hops : p.operations = pre ++ o :: rest)
    (hpre : runOps reg p.data [] pre = .ok outData)
    (hop : operations reg o.type = none) :
    p.Verify reg data ts = .error ("unknown operation \x27" ++ o.type ++ "\x27") := by
  apply verify_eq_error_of_runOps reg p data ts _ h1 h2 h3 h4
  rw [hops, runOps_append reg p.data pre (o :: rest) [] outData hpre]
  simp only [runOps, hop]

/-- Witness for C9: an operation of type `bogus`. -/
theorem C9_unknown_operation_witness :
    operations toyReg "bogus" = none ∧
      Proof.Verify toyReg ⟨[⟨"bogus", [0]⟩], [[1]], [⟨-1, "X"⟩]⟩ [1] 0
        = .error ("unknown operation \x27" ++ "bogus" ++ "\x27") :=
  ⟨by rfl,
    C9_unknown_operation toyReg ⟨[⟨"bogus", [0]⟩], [[1]], [⟨-1, "X"⟩]⟩ [1] 0 [] []
      [] ⟨"bogus", [0]⟩ (by rfl) (by rfl) (by rfl) (by rfl) (by rfl) (by rfl)
      (by rfl)⟩

/-! ### C10: the trust walk stays in bounds and terminates -/

/-- Bounds-checked variant of the trust walk: `none` when a visited
non-negative position is not a literal index, a visited negative position
`-k` has `k` larger than the number of operations, or the recursion depth
exceeds the fuel; otherwise exactly the tuple `recData` computes. -/
def recDataChecked (p : Proof) (data tdata : List Nat) :
    Nat → Int → Option (Bool × Bool × List String)
  | 0, pos =>
    if 0 ≤ pos then
      if pos.toNat < p.data.length then
        some (data == p.data.getD pos.toNat [], tdata == p.data.getD pos.toNat [], [])
      else none
    else none
  | fuel + 1, pos =>
    if 0 ≤ pos then
      if pos.toNat < p.data.length then
        some (data == p.data.getD pos.toNat [], tdata == p.data.getD pos.toNat [], [])
      else none
    else
      if ((-pos) - 1).toNat < p.operations.length then
        match (p.operations.getD ((-pos) - 1).toNat ⟨"", []⟩).data.mapM
            (recDataChecked p data tdata fuel) with
        | none => none
        | some rs =>
          some (rs.foldl
            (stepHash (p.operations.getD ((-pos) - 1).toNat ⟨"", []⟩).type)
            (false, false, []))
      else none

theorem mapM_option_eq_map {α β : Type} (f : α → Option β) (g : α → β)
    (hfg : ∀ a b, f a = some b → g a = b) :
    ∀ (l : List α) (rs : List β), l.mapM f = some rs → l.map g = rs := by
  intro l
  induction l with
  | nil =>
    intro rs h
    simp only [List.mapM_nil, pure, Option.some.injEq] at h
    simp [← h]
  | cons a l ih =>
    intro rs h
    rw [List.mapM_cons] at h
    rcases hfa : f a with - | b
    · rw [hfa] at h; simp at h
    · rw [hfa] at h
      rcases hml : l.mapM f with - | bs
      · rw [hml] at h; simp at h
      · rw [hml] at h
        simp at h
        subst h
        simp [List.map_cons, hfg a b hfa, ih bs hml]

theorem mapM_option_isSome {α β : Type} (f : α → Option β) :
    ∀ l : List α, (∀ a ∈ l, (f a).isSome) → (l.mapM f).isSome := by
  intro l
  induction l with
  | nil => intro _; rfl
  | cons a l ih =>
    intro h
    rw [List.mapM_cons]
    rcases hfa : f a with - | b
    · have := h a (by simp)
      rw [hfa] at this
      exact absurd this (by simp)
    · have := ih (fun x hx => h x (by simp [hx]))
      rcases hml : l.mapM f with - | bs
      · rw [hml] at this
        exact absurd this (by simp)
      · simp [hfa, hml]

/-- Unfolding equation of `recData` at a negative position with positive
fuel. -/
theorem recData_succ_neg (p : Proof) (data tdata : List Nat) (n : Nat)
    (pos : Int) (hpos : ¬ 0 ≤ pos) :
    recData p data tdata (n + 1) pos
      = ((p.operations.getD ((-pos) - 1).toNat ⟨"", []⟩).data.map
          (recData p data tdata n)).foldl
          (stepHash (p.operations.getD ((-pos) - 1).toNat ⟨"", []⟩).type)
          (false, false, []) := by
  unfold recData
  rw [if_neg hpos]

/-- The checked walk refines the walk `Verify` runs: whenever it returns a
tuple, `recData` computes the same tuple with the same fuel. -/
theorem recDataChecked_eq_recData (p : Proof) (data tdata : List Nat) :
    ∀ fuel pos r, recDataChecked p data tdata fuel pos = some r →
      recData p data tdata fuel pos = r := by
  intro fuel
  induction fuel with
  | zero =>
    intro pos r h
    simp only [recDataChecked] at h
    split at h
    · split at h
      · unfold recData
        rw [if_pos (by assumption)]
        exact Option.some.inj h
      · exact absurd h (by simp)
    · exact absurd h (by simp)
  | succ n ih =>
    intro pos r h
    simp only [recDataChecked] at h
    split at h
    · split at h
      · unfold recData
        rw [if_pos (by assumption)]
        exact Option.some.inj h
      · exact absurd h (by simp)
    next hpos =>
      split at h
      next hidx =>
        split at h
        · exact absurd h (by simp)
        next rs hrs =>
          rw [recData_succ_neg p data tdata n pos hpos,
            mapM_option_eq_map _ _ (fun a b hab => ih a b hab) _ rs hrs]
          exact Option.some.inj h
      · exact absurd h (by simp)

/-- Fuel sufficiency and in-boundedness: on a document whose operations all
passed input validation, the checked walk returns a value whenever the
start position is in range and the fuel covers the start's operation
index. -/
theorem recDataChecked_isSome (p : Proof) (data tdata : List Nat)
    (hv : ∀ j < p.operations.length,
      ∀ di ∈ (p.operations.getD j ⟨"", []⟩).data,
        (di < 0 → (-di) ≤ (j : Int)) ∧ (¬ di < 0 → di < (p.data.length : Int))) :
    ∀ (fuel : Nat) (pos : Int), (¬ pos < 0 → pos < (p.data.length : Int)) →
      (pos < 0 → (-pos) ≤ (fuel : Int) ∧ (-pos) ≤ (p.operations.length : Int)) →
      (recDataChecked p data tdata fuel pos).isSome := by
  intro fuel
  induction fuel with
  | zero =>
    intro pos h1 h2
    have hpos : 0 ≤ pos := by
      by_contra hp
      have := h2 (by omega)
      omega
    have hlt : pos.toNat < p.data.length := by
      have := h1 (by omega)
      omega
    simp only [recDataChecked]
    rw [if_pos hpos, if_pos hlt]
    rfl
  | succ n ih =>
    intro pos h1 h2
    by_cases hpos : 0 ≤ pos
    · have hlt : pos.toNat < p.data.length := by
        have := h1 (by omega)
        omega
      simp only [recDataChecked]
      rw [if_pos hpos, if_pos hlt]
      rfl
    · have hneg : pos < 0 := by omega
      obtain ⟨hf, hops⟩ := h2 hneg
      have hidx : ((-pos) - 1).toNat < p.operations.length := by omega
      simp only [recDataChecked]
      rw [if_neg hpos, if_pos hidx]
      have hsome : ((p.operations.getD ((-pos) - 1).toNat ⟨"", []⟩).data.mapM
          (recDataChecked p data tdata n)).isSome := by
        apply mapM_option_isSome
        intro nPos hnPos
        have hb := hv (((-pos) - 1).toNat) hidx nPos hnPos
        apply ih
        · intro hnn
          exact hb.2 hnn
        · intro hnn
          have := hb.1 hnn
          constructor
          · omega
          · omega
      rcases hrs : (p.operations.getD ((-pos) - 1).toNat ⟨"", []⟩).data.mapM
          (recDataChecked p data tdata n) with - | rs
      · rw [hrs] at hsome
        exact absurd hsome (by simp)
      · simp [hrs]

/-- The bounds a successful input resolution guarantees for each index. -/
theorem resolveInputs_ok_bounds {pdata outData : List (List Nat)} :
    ∀ {ds : List Int} {buf : List Nat}, resolveInputs pdata outData ds = .ok buf →
      ∀ di ∈ ds, (di < 0 → (-di) ≤ (outData.length : Int)) ∧
        (¬ di < 0 → di < (pdata.length : Int)) := by
  intro ds
  induction ds with
  | nil => intro buf h di hdi; simp at hdi
  | cons x rest ih =>
    intro buf h di hdi
    obtain ⟨tail, ht, hcase⟩ := resolveInputs_cons_ok h
    rcases List.mem_cons.mp hdi with rfl | hdi
    · rcases hcase with ⟨hx, hb, -⟩ | ⟨hx, hlt, -⟩
      · exact ⟨fun _ => by omega, fun h' => absurd hx h'⟩
      · exact ⟨fun h' => absurd h' hx, fun _ => hlt⟩
    · exact ih ht di hdi

/-- The bounds provided by a successful operation pass: each operation's
inputs only reach literals and strictly earlier outputs. -/
theorem runOps_ok_bounds (reg : Registry) (pdata : List (List Nat)) :
    ∀ (ops : List Operation) (acc outData : List (List Nat)),
      runOps reg pdata acc ops = .ok outData →
      outData.length = acc.length + ops.length ∧
      ∀ j < ops.length, ∀ di ∈ (ops.getD j ⟨"", []⟩).data,
        (di < 0 → (-di) ≤ ((acc.length + j : Nat) : Int)) ∧
        (¬ di < 0 → di < (pdata.length : Int)) := by
  intro ops
  induction ops with
  | nil =>
    intro acc outData h
    cases h
    exact ⟨by simp, by simp⟩
  | cons o rest ih =>
    intro acc outData h
    obtain ⟨f, inBuf, hf, hem, hin, h'⟩ := runOps_cons_ok h
    obtain ⟨hlen, hrest⟩ := ih _ _ h'
    constructor
    · rw [hlen]
      simp only [List.length_append, List.length_cons, List.length_nil]
      omega
    · intro j hj di hdi
      cases j with
      | zero =>
        have hb := resolveInputs_ok_bounds hin di (by simpa using hdi)
        refine ⟨fun hneg => ?_, hb.2⟩
        have := hb.1 hneg
        omega
      | succ j =>
        have hj' : j < rest.length := by simpa using hj
        have hb := hrest j hj' di (by simpa using hdi)
        refine ⟨fun hneg => ?_, hb.2⟩
        have := hb.1 hneg
        simp only [List.length_append, List.length_cons, List.length_nil] at this
        omega

/-- C10: on every document and input on which `Verify`'s structural
validation passes, the trust walk from every reference target stays in
range (every visited non-negative position is a literal index and every
visited negative position names an operation), terminates within fuel
`p.operations.length`, and `recData` — the walk `Verify` actually runs —
computes exactly the checked walk's answer. -/
theorem C10_walk_in_bounds_and_terminates (reg : Registry) (p : Proof)
    (data : List Nat) (ts : Int) (outData : List (List Nat))
    (refData : List VerifiedReference)
    (h5 : runOps reg p.data [] p.operations = .ok outData)
    (h6 : mkRefData p.data outData p.references = .ok refData) :
    ∀ r ∈ p.references, ∃ res,
      recDataChecked p data (tdataOf ts) p.operations.length r.data = some res ∧
        recData p data (tdataOf ts) p.operations.length r.data = res := by
  intro r hr
  obtain ⟨hlen, hv0⟩ := runOps_ok_bounds reg p.data p.operations [] outData h5
  obtain ⟨hall, -⟩ := mkRefData_ok_inv h6
  obtain ⟨-, hrneg, hrbound⟩ := hall r hr
  have hv : ∀ j < p.operations.length,
      ∀ di ∈ (p.operations.getD j ⟨"", []⟩).data,
        (di < 0 → (-di) ≤ (j : Int)) ∧ (¬ di < 0 → di < (p.data.length : Int)) := by
    intro j hj di hdi
    have := hv0 j hj di hdi
    simpa using this
  have hsome := recDataChecked_isSome p data (tdataOf ts) hv
    p.operations.length r.data
    (fun hnn => absurd hrneg hnn)
    (fun _ => by
      constructor
      · simp only [List.length_nil, Nat.zero_add] at hlen
        omega
      · simp only [List.length_nil, Nat.zero_add] at hlen
        omega)
  rcases hres : recDataChecked p data (tdataOf ts) p.operations.length r.data
      with - | res
  · rw [hres] at hsome
    exact absurd hsome (by simp)
  · exact ⟨res, rfl, recDataChecked_eq_recData p data (tdataOf ts) _ _ res hres⟩

/-- Witness for C10 on the sample document's only reference. -/
theorem C10_walk_in_bounds_and_terminates_witness :
    (⟨-2, "X"⟩ : Reference) ∈ exDoc.references ∧ ∃ res,
      recDataChecked exDoc [5] (tdataOf 0) exDoc.operations.length (-2)
        = some res ∧
      recData exDoc [5] (tdataOf 0) exDoc.operations.length (-2) = res :=
  ⟨by decide,
    C10_walk_in_bounds_and_terminates toyReg exDoc [5] 0 [[3, 5], [2, 3, 5, 5]]
      [⟨[2, 3, 5, 5], "X", []⟩] (by rfl) (by rfl) ⟨-2, "X"⟩ (by decide)⟩

end Veriffio
